import Mathlib

/-!
Verification of the txtpack delimiter codec and stream extractor
(`src/txtpack/delimiter_processing.py`), with the unpack driver loop of
`parse_concatenated_content` modelled from the specification.

Python strings are modelled as `List Char`, byte buffers as `List Nat`
(each element a byte value), Python integers as `Int`, and cursor
positions as `Int` (Python slicing and `bytes.find` clamp negative
indices, which the models below reproduce).  Fallible operations return
`Except`.
-/

/-- Characters of a Lean string literal, used to write concrete Python strings. -/
def chars (s : String) : List Char := s.data

/-- Byte list of an ASCII string literal, used to write concrete byte buffers. -/
def asciiBytes (s : String) : List Nat := s.data.map Char.toNat

/-- Model of the `BundlerConfig` dataclass.  Field names follow the source,
with `file_start_prefix` and `file_end_prefix` shortened to `..._pre`. -/
structure BundlerConfig where
  file_start_pre : List Char
  file_start_middle : List Char
  file_start_bytes_suffix : List Char
  file_end_pre : List Char
  file_end_suffix : List Char
  default_search_path : List Char
deriving DecidableEq

/-- The default `BundlerConfig()` values. -/
def defaultConfig : BundlerConfig :=
  ⟨chars "--- FILE: ", chars " (", chars " bytes) ---",
   chars "--- END: ", chars " ---", chars "."⟩

/-- Python slice `l[a:b]` for non-negative indices (clamping at the length). -/
def pySlice (l : List Char) (a b : Nat) : List Char := (l.take b).drop a

/-- Helper for `strFind`: first index `≥ i` at which `needle` starts in `hay`. -/
def strFindAux (hay needle : List Char) (i : Nat) : Option Nat :=
  if needle.isPrefixOf hay then some i
  else
    match hay with
    | [] => none
    | _ :: t => strFindAux t needle (i + 1)

/-- Model of Python `hay.find(needle)`: index of the first occurrence
(`none` models the return value `-1`). -/
def strFind (hay needle : List Char) : Option Nat := strFindAux hay needle 0

/-- Model of Python `needle in hay` for strings. -/
def pyIn (needle hay : List Char) : Bool := (strFind hay needle).isSome

/-- ASCII whitespace stripped by Python `int(str)`. -/
def isPySpace (c : Char) : Bool :=
  c.toNat = 32 || c.toNat = 9 || c.toNat = 10 || c.toNat = 13 || c.toNat = 11 || c.toNat = 12

/-- ASCII decimal digit test. -/
def isAsciiDigit (c : Char) : Bool := 48 ≤ c.toNat && c.toNat ≤ 57

/-- Value of an ASCII decimal digit. -/
def digitVal (c : Char) : Nat := c.toNat - 48

/-- Digit-sequence tail of Python `int()`: after a first digit, each further
character is a digit or a single underscore followed by a digit. -/
def digitCore : List Char → Nat → Option Nat
  | [], acc => some acc
  | c :: t, acc =>
    if c = '_' then
      match t with
      | [] => none
      | d :: t2 => if isAsciiDigit d then digitCore t2 (acc * 10 + digitVal d) else none
    else if isAsciiDigit c then digitCore t (acc * 10 + digitVal c) else none

/-- Digit sequence of Python `int()`: must begin with a digit. -/
def digitStart : List Char → Option Nat
  | [] => none
  | c :: t => if isAsciiDigit c then digitCore t (digitVal c) else none

/-- Python `str.strip()` restricted to ASCII whitespace. -/
def pyStrip (l : List Char) : List Char :=
  ((l.dropWhile isPySpace).reverse.dropWhile isPySpace).reverse

/-- Sign-and-digits part of Python `int(s)`, applied after stripping. -/
def pyIntCore : List Char → Option Int
  | [] => none
  | c :: t =>
    if c = '+' then (digitStart t).map (fun n => (n : Int))
    else if c = '-' then (digitStart t).map (fun n => -(n : Int))
    else (digitStart (c :: t)).map (fun n => (n : Int))

/-- Model of Python `int(s)` on a decimal string: optional surrounding
whitespace, optional sign, digits with underscore separators.
(Non-ASCII digits accepted by CPython are not modelled.) -/
def pyInt? (l : List Char) : Option Int := pyIntCore (pyStrip l)

/-- Helper for `natToChars`: decimal digits of `n`, fuel-structured. -/
def natToCharsAux : Nat → Nat → List Char → List Char
  | 0, _, acc => acc
  | fuel + 1, n, acc =>
    if n < 10 then Char.ofNat (48 + n) :: acc
    else natToCharsAux fuel (n / 10) (Char.ofNat (48 + n % 10) :: acc)

/-- Decimal representation of a natural number, as Python `str(n)`. -/
def natToChars (n : Nat) : List Char := natToCharsAux (n + 1) n []

/-- Model of Python `str(i)` for an integer. -/
def intToChars (i : Int) : List Char :=
  if i < 0 then '-' :: natToChars i.natAbs else natToChars i.toNat

/-- UTF-8 continuation byte test. -/
def isCont (b : Nat) : Bool := 128 ≤ b && b ≤ 191

/-- Allowed second byte of a three-byte UTF-8 sequence with lead byte `b`. -/
def utf8Second3 (b b2 : Nat) : Bool :=
  if b = 224 then 160 ≤ b2 && b2 ≤ 191
  else if b = 237 then 128 ≤ b2 && b2 ≤ 159
  else isCont b2

/-- Allowed second byte of a four-byte UTF-8 sequence with lead byte `b`. -/
def utf8Second4 (b b2 : Nat) : Bool :=
  if b = 240 then 144 ≤ b2 && b2 ≤ 191
  else if b = 244 then 128 ≤ b2 && b2 ≤ 143
  else isCont b2

/-- Strict UTF-8 decoding of a byte list, as Python `bytes.decode("utf-8")`:
rejects overlong encodings, surrogates and code points above U+10FFFF.
Returns `none` where Python raises `UnicodeDecodeError`. -/
def utf8Decode? : List Nat → Option (List Char)
  | [] => some []
  | b :: rest =>
    if b ≤ 127 then (utf8Decode? rest).map (fun cs => Char.ofNat b :: cs)
    else if 194 ≤ b && b ≤ 223 then
      match rest with
      | [] => none
      | b2 :: rest2 =>
        if isCont b2 then
          (utf8Decode? rest2).map (fun cs => Char.ofNat ((b - 192) * 64 + (b2 - 128)) :: cs)
        else none
    else if 224 ≤ b && b ≤ 239 then
      match rest with
      | b2 :: b3 :: rest2 =>
        if utf8Second3 b b2 && isCont b3 then
          (utf8Decode? rest2).map
            (fun cs => Char.ofNat ((b - 224) * 4096 + (b2 - 128) * 64 + (b3 - 128)) :: cs)
        else none
      | _ => none
    else if 240 ≤ b && b ≤ 244 then
      match rest with
      | b2 :: b3 :: b4 :: rest2 =>
        if utf8Second4 b b2 && isCont b3 && isCont b4 then
          (utf8Decode? rest2).map
            (fun cs =>
              Char.ofNat
                ((b - 240) * 262144 + (b2 - 128) * 4096 + (b3 - 128) * 64 + (b4 - 128)) :: cs)
        else none
      | _ => none
    else none

/-- UTF-8 byte length of a text, `len(c.encode("utf-8"))`. -/
def utf8ByteLength (c : List Char) : Int := ((c.map Char.utf8Size).sum : Nat)

/-- `create_file_start_delimiter`: `prefix + filename + middle + str(byte_count) + bytes_suffix`. -/
def create_file_start_delimiter (filename : List Char) (byte_count : Int)
    (config : BundlerConfig) : List Char :=
  config.file_start_pre ++ filename ++ config.file_start_middle ++
    intToChars byte_count ++ config.file_start_bytes_suffix

/-- `create_file_end_delimiter`: `end_prefix + filename + end_suffix`. -/
def create_file_end_delimiter (filename : List Char) (config : BundlerConfig) : List Char :=
  config.file_end_pre ++ filename ++ config.file_end_suffix

/-- `is_file_start_delimiter`: starts with the start fragment, contains the
middle fragment, ends with the bytes suffix. -/
def is_file_start_delimiter (line : List Char) (config : BundlerConfig) : Bool :=
  config.file_start_pre.isPrefixOf line &&
    pyIn config.file_start_middle line &&
    config.file_start_bytes_suffix.isSuffixOf line

/-- Error cases of `parse_file_start_delimiter` (all `ValueError` in the source). -/
inductive DelimErr where
  | notStartDelimiter
  | missingMiddle
  | missingBytesSuffix
  | invalidByteCount
deriving DecidableEq

/-- `parse_file_start_delimiter`: split the line at the first occurrence of the
middle fragment and the first occurrence of the bytes suffix, and parse the
numeric field with `int()`. -/
def parse_file_start_delimiter (line : List Char) (config : BundlerConfig) :
    Except DelimErr (List Char × Int) :=
  if ¬ is_file_start_delimiter line config then .error .notStartDelimiter
  else
    match strFind line config.file_start_middle with
    | none => .error .missingMiddle
    | some middle_pos =>
      let filename := pySlice line config.file_start_pre.length middle_pos
      let bytes_start := middle_pos + config.file_start_middle.length
      match strFind line config.file_start_bytes_suffix with
      | none => .error .missingBytesSuffix
      | some bytes_end =>
        match pyInt? (pySlice line bytes_start bytes_end) with
        | none => .error .invalidByteCount
        | some byte_count => .ok (filename, byte_count)

/-- The numeric field `line[bytes_start:bytes_end]` that
`parse_file_start_delimiter` hands to `int()`. -/
def byteCountField (line : List Char) (config : BundlerConfig) : List Char :=
  pySlice line
    ((strFind line config.file_start_middle).getD 0 + config.file_start_middle.length)
    ((strFind line config.file_start_bytes_suffix).getD 0)

/-- `is_file_end_delimiter`: exact equality with the expected end delimiter. -/
def is_file_end_delimiter (line filename : List Char) (config : BundlerConfig) : Bool :=
  line == config.file_end_pre ++ filename ++ config.file_end_suffix

/-- Helper for `pyByteFindFrom`: first index `≥ i` of the byte `x`. -/
def byteFindAux : List Nat → Nat → Nat → Option Nat
  | [], _, _ => none
  | c :: t, x, i => if c = x then some i else byteFindAux t x (i + 1)

/-- Effective non-negative start index of Python `bytes.find(sub, start)`:
negative starts count from the end and clamp at zero. -/
def pyStart (l : List Nat) (start : Int) : Nat :=
  if start < 0 then ((l.length : Int) + start).toNat else start.toNat

/-- Model of Python `content_bytes.find(bytes([x]), start)` (negative starts
count from the end, as in Python). -/
def pyByteFindFrom (l : List Nat) (x : Nat) (start : Int) : Option Nat :=
  byteFindAux (l.drop (pyStart l start)) x (pyStart l start)

/-- `find_next_line_end`: position of the next newline at or after `start_pos`,
or the length of the content when there is none. -/
def find_next_line_end (content_bytes : List Nat) (start_pos : Int) : Int :=
  match pyByteFindFrom content_bytes 10 start_pos with
  | some i => (i : Int)
  | none => (content_bytes.length : Int)

/-- Effective non-negative index of a Python slice endpoint `i` for a sequence
of length `n`: negative indices count from the end, out-of-range indices clamp. -/
def pyIdx (n : Int) (i : Int) : Nat :=
  (if i < 0 then max (n + i) 0 else min i n).toNat

/-- Python byte-slice `l[a:b]` with full Python index semantics. -/
def pySliceB (l : List Nat) (a b : Int) : List Nat :=
  (l.take (pyIdx (l.length : Int) b)).drop (pyIdx (l.length : Int) a)

/-- Error cases of `extract_file_content_at_position` (both `ValueError`). -/
inductive ExtractErr where
  | truncatedContent
  | decodeFailed
deriving DecidableEq

/-- `extract_file_content_at_position`: check the declared count against the
remaining buffer, slice exactly `byte_count` bytes, decode them as UTF-8. -/
def extract_file_content_at_position (content_bytes : List Nat) (pos : Int)
    (_filename : List Char) (byte_count : Int) : Except ExtractErr (List Char × Int) :=
  if pos + byte_count > (content_bytes.length : Int) then .error .truncatedContent
  else
    match utf8Decode? (pySliceB content_bytes pos (pos + byte_count)) with
    | none => .error .decodeFailed
    | some file_content => .ok (file_content, pos + byte_count)

/-- The cursor after `skip_end_delimiter` consumes the payload separator
newline (if the byte at `pos` is a newline), before looking at the end line. -/
def skipSepPos (content_bytes : List Nat) (pos : Int) : Int :=
  if pos < (content_bytes.length : Int) ∧ pySliceB content_bytes pos (pos + 1) == [10] then
    pos + 1
  else pos

/-- Whether the line beginning at `q` is a non-empty, decodable, exact end
delimiter for `filename` — the condition under which `skip_end_delimiter`
advances past it. -/
def endLineMatches (content_bytes : List Nat) (q : Int) (filename : List Char)
    (config : BundlerConfig) : Bool :=
  decide (find_next_line_end content_bytes q > q) &&
    (match utf8Decode? (pySliceB content_bytes q (find_next_line_end content_bytes q)) with
     | some end_line => is_file_end_delimiter end_line filename config
     | none => false)

/-- `skip_end_delimiter`: best-effort skipping of the end delimiter line;
on any mismatch the cursor is left where it was (after the separator). -/
def skip_end_delimiter (content_bytes : List Nat) (pos : Int) (filename : List Char)
    (config : BundlerConfig) : Int :=
  if pos ≥ (content_bytes.length : Int) then pos
  else
    if find_next_line_end content_bytes (skipSepPos content_bytes pos) >
        skipSepPos content_bytes pos then
      match
        utf8Decode?
          (pySliceB content_bytes (skipSepPos content_bytes pos)
            (find_next_line_end content_bytes (skipSepPos content_bytes pos))) with
      | some end_line =>
        if is_file_end_delimiter end_line filename config then
          find_next_line_end content_bytes (skipSepPos content_bytes pos) + 1
        else skipSepPos content_bytes pos
      | none => skipSepPos content_bytes pos
    else skipSepPos content_bytes pos

/-- `extract_next_file`: the top-level scan step.  Returns the next record
(if the current line is a valid start delimiter with extractable content)
together with the new cursor. -/
def extract_next_file (content_bytes : List Nat) (pos : Int) (config : BundlerConfig) :
    Option (List Char × List Char) × Int :=
  if find_next_line_end content_bytes pos = pos then (none, pos)
  else
    match utf8Decode? (pySliceB content_bytes pos (find_next_line_end content_bytes pos)) with
    | none => (none, find_next_line_end content_bytes pos + 1)
    | some line =>
      if ¬ is_file_start_delimiter line config then (none, find_next_line_end content_bytes pos + 1)
      else
        match parse_file_start_delimiter line config with
        | .error _ => (none, find_next_line_end content_bytes pos + 1)
        | .ok (filename, byte_count) =>
          match extract_file_content_at_position content_bytes
              (find_next_line_end content_bytes pos + 1) filename byte_count with
          | .error _ => (none, find_next_line_end content_bytes pos + 1)
          | .ok (file_content, pos_after) =>
            (some (filename, file_content),
              skip_end_delimiter content_bytes pos_after filename config)

/-- Modelled from the spec: the unpack driver loop of
`parse_concatenated_content` (file `content_parsing.py`, not present under
`src/`).  Per the spec's SCANNING/DONE state machine it starts at `pos = 0`,
repeatedly calls `extract_next_file`, collects returned records, and stops
when the cursor reaches the end of the buffer or when a call makes no
progress.  `fuel` bounds the number of iterations; `none` means the loop has
not finished within `fuel` steps. -/
def unpackFrom (content_bytes : List Nat) (config : BundlerConfig) :
    Nat → Int → List (List Char × List Char) → Option (List (List Char × List Char))
  | 0, _, _ => none
  | fuel + 1, pos, acc =>
    if (content_bytes.length : Int) ≤ pos then some acc.reverse
    else
      match extract_next_file content_bytes pos config with
      | (some fd, pos9) =>
        if pos9 = pos then some (fd :: acc).reverse
        else unpackFrom content_bytes config fuel pos9 (fd :: acc)
      | (none, pos9) =>
        if pos9 = pos then some acc.reverse
        else unpackFrom content_bytes config fuel pos9 acc

deriving instance DecidableEq for Except

/-! ### Helper lemmas about the list primitives -/

/-- A list is a Boolean prefix of itself followed by anything. -/
theorem isPrefixOf_append_self (l t : List Char) : l.isPrefixOf (l ++ t) = true := by
  induction l with
  | nil => simp [List.isPrefixOf]
  | cons a as ih => simp [List.isPrefixOf, ih]

/-- Boolean prefix test, characterised. -/
theorem isPrefixOf_iff_exists (p : List Char) :
    ∀ l : List Char, p.isPrefixOf l = true ↔ ∃ t, l = p ++ t := by
  induction p with
  | nil => intro l; simp [List.isPrefixOf]
  | cons a as ih =>
    intro l
    cases l with
    | nil => simp [List.isPrefixOf]
    | cons b bs =>
      simp only [List.isPrefixOf, Bool.and_eq_true, beq_iff_eq, ih bs]
      constructor
      · rintro ⟨rfl, t, rfl⟩; exact ⟨t, rfl⟩
      · rintro ⟨t, ht⟩
        injection ht with h1 h2
        exact ⟨h1.symm, t, h2⟩

/-- Boolean suffix test, characterised. -/
theorem isSuffixOf_iff_exists (s l : List Char) :
    s.isSuffixOf l = true ↔ ∃ t, l = t ++ s := by
  unfold List.isSuffixOf
  rw [isPrefixOf_iff_exists]
  constructor
  · rintro ⟨t, ht⟩
    refine ⟨t.reverse, ?_⟩
    have := congrArg List.reverse ht
    simpa using this
  · rintro ⟨t, rfl⟩
    exact ⟨t.reverse, by simp⟩

/-- `strFindAux` succeeds whenever the needle occurs in the haystack. -/
theorem strFindAux_isSome (s post : List Char) :
    ∀ (pre : List Char) (i : Nat), (strFindAux (pre ++ s ++ post) s i).isSome = true := by
  intro pre
  induction pre with
  | nil =>
    intro i
    unfold strFindAux
    rw [if_pos]
    · rfl
    · simp [isPrefixOf_append_self s post]
  | cons a pre' ih =>
    intro i
    unfold strFindAux
    by_cases h : s.isPrefixOf (((a :: pre') ++ s ++ post)) = true
    · rw [if_pos h]; rfl
    · rw [if_neg h]; exact ih (i + 1)

/-- `strFind` succeeds whenever the needle occurs in the haystack. -/
theorem strFind_isSome_of_infix (l s : List Char)
    (h : ∃ pre post, l = pre ++ s ++ post) : (strFind l s).isSome = true := by
  obtain ⟨pre, post, rfl⟩ := h
  exact strFindAux_isSome s post pre 0

/-- Taking the length of the left part of an append returns that part. -/
theorem take_length_append (u v : List Char) : (u ++ v).take u.length = u := by
  induction u with
  | nil => rfl
  | cons a as ih => simp [List.take, ih]

/-- Dropping the length of the left part of an append returns the right part. -/
theorem drop_length_append (u v : List Char) : (u ++ v).drop u.length = v := by
  induction u with
  | nil => rfl
  | cons a as ih => simp [List.drop, ih]

/-- The Python slice between the end of `a` and the end of `b` in `a ++ b ++ c` is `b`. -/
theorem pySlice_append (a b c : List Char) :
    pySlice (a ++ b ++ c) a.length (a.length + b.length) = b := by
  unfold pySlice
  have h1 : (a ++ b ++ c).take (a.length + b.length) = a ++ b := by
    have := take_length_append (a ++ b) c
    simpa [List.length_append] using this
  rw [h1, drop_length_append]

/-- `byteFindAux` returns an index at least the running counter and within range. -/
theorem byteFindAux_bounds :
    ∀ (l : List Nat) (x i j : Nat), byteFindAux l x i = some j → i ≤ j ∧ j < i + l.length := by
  intro l
  induction l with
  | nil => intro x i j h; simp [byteFindAux] at h
  | cons c t ih =>
    intro x i j h
    unfold byteFindAux at h
    by_cases hc : c = x
    · rw [if_pos hc] at h
      injection h with h
      simp only [List.length_cons]
      omega
    · rw [if_neg hc] at h
      obtain ⟨h1, h2⟩ := ih x (i + 1) j h
      simp only [List.length_cons]
      omega

/-- For a non-negative start, the effective Python find start is `toNat`. -/
theorem pyStart_nonneg (b : List Nat) (p : Int) (h0 : 0 ≤ p) : pyStart b p = p.toNat := by
  unfold pyStart
  rw [if_neg (by omega)]

/-- `find_next_line_end` never moves backwards and never exceeds the length. -/
theorem find_next_line_end_bounds (b : List Nat) (p : Int)
    (h0 : 0 ≤ p) (hp : p ≤ (b.length : Int)) :
    p ≤ find_next_line_end b p ∧ find_next_line_end b p ≤ (b.length : Int) := by
  unfold find_next_line_end pyByteFindFrom
  rw [pyStart_nonneg b p h0]
  rcases hfind : byteFindAux (b.drop p.toNat) 10 p.toNat with _ | j
  · simp only
    omega
  · obtain ⟨h1, h2⟩ := byteFindAux_bounds _ _ _ _ hfind
    simp only [List.length_drop] at h2
    simp only
    omega

/-- `find_next_line_end` stalls exactly at the end of the buffer or on a newline. -/
theorem find_next_line_end_eq_self_iff (b : List Nat) (p : Int)
    (h0 : 0 ≤ p) (hp : p ≤ (b.length : Int)) :
    find_next_line_end b p = p ↔ (p = (b.length : Int) ∨ b[p.toNat]? = some 10) := by
  unfold find_next_line_end pyByteFindFrom
  rw [pyStart_nonneg b p h0]
  by_cases hend : p = (b.length : Int)
  · have hdrop : b.drop p.toNat = [] := by
      apply List.drop_of_length_le
      omega
    rw [hdrop]
    simp [byteFindAux, hend]
  · have hlt : p.toNat < b.length := by omega
    have hdrop : b.drop p.toNat = b[p.toNat] :: b.drop (p.toNat + 1) :=
      List.drop_eq_getElem_cons hlt
    rw [hdrop]
    unfold byteFindAux
    by_cases hc : b[p.toNat] = 10
    · rw [if_pos hc]
      simp only
      have : b[p.toNat]? = some 10 := by
        rw [List.getElem?_eq_getElem hlt, hc]
      simp [this, hend]
      omega
    · rw [if_neg hc]
      have hne : b[p.toNat]? ≠ some 10 := by
        rw [List.getElem?_eq_getElem hlt]
        simp [hc]
      rcases hfind : byteFindAux (b.drop (p.toNat + 1)) 10 (p.toNat + 1) with _ | j
      · simp only
        constructor
        · intro h; omega
        · rintro (h | h)
          · omega
          · exact absurd h hne
      · obtain ⟨h1, h2⟩ := byteFindAux_bounds _ _ _ _ hfind
        simp only
        constructor
        · intro h; omega
        · rintro (h | h)
          · simp only [List.length_drop] at h2
            omega
          · exact absurd h hne

/-- Dropping then taking commutes into taking then dropping. -/
theorem take_drop_swap : ∀ (l : List Nat) (m n : Nat), (l.take m).drop n = (l.drop n).take (m - n) := by
  intro l
  induction l with
  | nil => intro m n; simp
  | cons a t ih =>
    intro m n
    cases m with
    | zero => simp
    | succ m' =>
      cases n with
      | zero => simp
      | succ n' => simpa [List.take, List.drop] using ih m' n'

/-- A Python byte slice with in-range non-negative endpoints is take-of-drop. -/
theorem pySliceB_eq (b : List Nat) (p q : Int)
    (h0 : 0 ≤ p) (hpl : p ≤ (b.length : Int)) (hq : 0 ≤ q) (hql : q ≤ (b.length : Int)) :
    pySliceB b p q = (b.drop p.toNat).take (q.toNat - p.toNat) := by
  unfold pySliceB pyIdx
  rw [if_neg (by omega), if_neg (by omega)]
  have h1 : (min p (b.length : Int)).toNat = p.toNat := by omega
  have h2 : (min q (b.length : Int)).toNat = q.toNat := by omega
  rw [h1, h2, take_drop_swap]

/-- A Python byte slice of width one at an in-range position is that byte. -/
theorem pySliceB_singleton (b : List Nat) (p : Int) (c : Nat)
    (h0 : 0 ≤ p) (hc : b[p.toNat]? = some c) :
    pySliceB b p (p + 1) = [c] := by
  have hlt : p.toNat < b.length := by
    rcases List.getElem?_eq_some.mp hc with ⟨h, _⟩
    exact h
  have hcv : b[p.toNat] = c := by
    rcases List.getElem?_eq_some.mp hc with ⟨h, hv⟩
    exact hv
  rw [pySliceB_eq b p (p + 1) h0 (by omega) (by omega) (by omega)]
  have ht : (p + 1).toNat - p.toNat = 1 := by omega
  rw [ht]
  rw [List.drop_eq_getElem_cons hlt, hcv]
  rfl

/-- When the byte at `pos` is a newline, the separator-skip advances by one. -/
theorem skipSepPos_of_newline (b : List Nat) (pos : Int)
    (h0 : 0 ≤ pos) (hc : b[pos.toNat]? = some 10) :
    skipSepPos b pos = pos + 1 := by
  have hlt : pos.toNat < b.length := by
    rcases List.getElem?_eq_some.mp hc with ⟨h, _⟩
    exact h
  unfold skipSepPos
  rw [if_pos]
  constructor
  · omega
  · rw [pySliceB_singleton b pos 10 h0 hc]
    rfl

/-- The separator-skip never moves backwards and stays in range. -/
theorem skipSepPos_bounds (b : List Nat) (pos : Int) (hp : pos < (b.length : Int)) :
    pos ≤ skipSepPos b pos ∧ skipSepPos b pos ≤ (b.length : Int) := by
  unfold skipSepPos
  by_cases h : pos < (b.length : Int) ∧ pySliceB b pos (pos + 1) == [10]
  · rw [if_pos h]
    omega
  · rw [if_neg h]
    omega

/-! ### Lemmas about decimal printing and Python `int()` parsing -/

/-- The digit-accumulation step of decimal parsing. -/
def accDigit (a : Nat) (c : Char) : Nat := a * 10 + digitVal c

/-- Decimal digit characters have the expected code point. -/
theorem digit_char_toNat (d : Nat) (hd : d < 10) : (Char.ofNat (48 + d)).toNat = 48 + d := by
  interval_cases d <;> decide

/-- Decimal digit characters pass the digit test. -/
theorem digit_char_isDigit (d : Nat) (hd : d < 10) : isAsciiDigit (Char.ofNat (48 + d)) = true := by
  interval_cases d <;> decide

/-- Decimal digit characters have the expected numeric value. -/
theorem digit_char_val (d : Nat) (hd : d < 10) : digitVal (Char.ofNat (48 + d)) = d := by
  interval_cases d <;> decide

/-- Digit characters are not whitespace. -/
theorem digit_not_space (c : Char) (h : isAsciiDigit c = true) : isPySpace c = false := by
  simp only [isAsciiDigit, Bool.and_eq_true, decide_eq_true_eq] at h
  simp only [isPySpace, Bool.or_eq_false_iff, decide_eq_false_iff_not]
  omega

/-- Digit characters are not an underscore. -/
theorem digit_ne_underscore (c : Char) (h : isAsciiDigit c = true) : c ≠ '_' := by
  simp only [isAsciiDigit, Bool.and_eq_true, decide_eq_true_eq] at h
  intro hEq
  subst hEq
  simp at h

/-- Digit characters are not a plus sign. -/
theorem digit_ne_plus (c : Char) (h : isAsciiDigit c = true) : c ≠ '+' := by
  simp only [isAsciiDigit, Bool.and_eq_true, decide_eq_true_eq] at h
  intro hEq
  subst hEq
  simp at h

/-- Digit characters are not a minus sign. -/
theorem digit_ne_minus (c : Char) (h : isAsciiDigit c = true) : c ≠ '-' := by
  simp only [isAsciiDigit, Bool.and_eq_true, decide_eq_true_eq] at h
  intro hEq
  subst hEq
  simp at h

/-- On all-digit input, `digitCore` folds the digits onto the accumulator. -/
theorem digitCore_all_digits :
    ∀ (l : List Char) (acc : Nat), (∀ c ∈ l, isAsciiDigit c = true) →
      digitCore l acc = some (l.foldl accDigit acc) := by
  intro l
  induction l with
  | nil => intro acc _; rfl
  | cons c t ih =>
    intro acc h
    have hc : isAsciiDigit c = true := h c (by simp)
    unfold digitCore
    rw [if_neg (digit_ne_underscore c hc), if_pos hc]
    rw [ih (acc * 10 + digitVal c) (fun d hd => h d (by simp [hd]))]
    rfl

/-- `dropWhile` is the identity on lists with no leading match. -/
theorem dropWhile_eq_self_of (p : Char → Bool) (l : List Char)
    (h : ∀ c ∈ l, p c = false) : l.dropWhile p = l := by
  cases l with
  | nil => rfl
  | cons a t =>
    rw [List.dropWhile_cons, if_neg]
    simp [h a (by simp)]

/-- `pyStrip` is the identity on all-digit strings. -/
theorem pyStrip_digits (l : List Char) (h : ∀ c ∈ l, isAsciiDigit c = true) :
    pyStrip l = l := by
  unfold pyStrip
  rw [dropWhile_eq_self_of _ l (fun c hc => digit_not_space c (h c hc))]
  rw [dropWhile_eq_self_of _ l.reverse (fun c hc => digit_not_space c (h c (by simpa using hc)))]
  simp

/-- Splitting `natToCharsAux` from its accumulator. -/
theorem natToCharsAux_append :
    ∀ (fuel n : Nat) (acc : List Char),
      natToCharsAux fuel n acc = natToCharsAux fuel n [] ++ acc := by
  intro fuel
  induction fuel with
  | zero => intro n acc; rfl
  | succ f ih =>
    intro n acc
    unfold natToCharsAux
    by_cases h : n < 10
    · rw [if_pos h, if_pos h]
      rfl
    · rw [if_neg h, if_neg h, ih (n / 10) (Char.ofNat (48 + n % 10) :: acc),
        ih (n / 10) [Char.ofNat (48 + n % 10)]]
      simp

/-- With enough fuel, `natToCharsAux` prints a non-empty all-digit string that
parses back to its input. -/
theorem natToCharsAux_spec :
    ∀ (fuel n : Nat), n < fuel →
      (natToCharsAux fuel n []).foldl accDigit 0 = n ∧
        (∀ c ∈ natToCharsAux fuel n [], isAsciiDigit c = true) ∧
        natToCharsAux fuel n [] ≠ [] := by
  intro fuel
  induction fuel with
  | zero => intro n h; omega
  | succ f ih =>
    intro n hn
    unfold natToCharsAux
    by_cases h : n < 10
    · rw [if_pos h]
      refine ⟨?_, ?_, by simp⟩
      · simp [accDigit, digit_char_val n h]
      · intro c hc
        simp only [List.mem_singleton] at hc
        subst hc
        exact digit_char_isDigit n h
    · rw [if_neg h]
      have hdiv : n / 10 < f := by
        have := Nat.div_lt_self (show 0 < n by omega) (show 1 < 10 by omega)
        omega
      obtain ⟨hfold, hdig, hne⟩ := ih (n / 10) hdiv
      rw [natToCharsAux_append f (n / 10) [Char.ofNat (48 + n % 10)]]
      have hmod : n % 10 < 10 := Nat.mod_lt _ (by omega)
      refine ⟨?_, ?_, by simp⟩
      · rw [List.foldl_append, hfold]
        simp only [List.foldl_cons, List.foldl_nil, accDigit]
        rw [digit_char_val _ hmod]
        omega
      · intro c hc
        rcases List.mem_append.mp hc with hc | hc
        · exact hdig c hc
        · simp only [List.mem_singleton] at hc
          subst hc
          exact digit_char_isDigit _ hmod

/-- Parsing the decimal print of a natural number returns that number. -/
theorem pyInt?_natToChars (m : Nat) : pyInt? (natToChars m) = some (m : Int) := by
  unfold natToChars
  obtain ⟨hfold, hdig, hne⟩ := natToCharsAux_spec (m + 1) m (by omega)
  unfold pyInt?
  rw [pyStrip_digits _ hdig]
  rcases hrepr : natToCharsAux (m + 1) m [] with _ | ⟨c, t⟩
  · exact absurd hrepr hne
  · rw [hrepr] at hdig hfold
    have hc : isAsciiDigit c = true := hdig c (by simp)
    simp only [pyIntCore]
    rw [if_neg (digit_ne_plus c hc), if_neg (digit_ne_minus c hc)]
    simp only [digitStart]
    rw [if_pos hc, digitCore_all_digits t (digitVal c) (fun d hd => hdig d (by simp [hd]))]
    have hstep : (c :: t).foldl accDigit 0 = t.foldl accDigit (digitVal c) := by
      simp [accDigit]
    rw [hstep] at hfold
    rw [hfold]
    rfl

/-- Python `str(i)` of a non-negative integer is its natural decimal print. -/
theorem intToChars_nonneg (n : Int) (h : 0 ≤ n) : intToChars n = natToChars n.toNat := by
  unfold intToChars
  rw [if_neg (by omega)]

/-- Parsing the print of a non-negative integer returns it. -/
theorem pyInt?_intToChars (n : Int) (h : 0 ≤ n) : pyInt? (intToChars n) = some n := by
  rw [intToChars_nonneg n h, pyInt?_natToChars]
  congr 1
  omega

/-- Every created start delimiter passes the syntactic start-delimiter test. -/
theorem is_start_create (f : List Char) (n : Int) (cfg : BundlerConfig) :
    is_file_start_delimiter (create_file_start_delimiter f n cfg) cfg = true := by
  unfold is_file_start_delimiter create_file_start_delimiter
  simp only [Bool.and_eq_true]
  refine ⟨⟨?_, ?_⟩, ?_⟩
  · have e : cfg.file_start_pre ++ f ++ cfg.file_start_middle ++ intToChars n ++
        cfg.file_start_bytes_suffix =
        cfg.file_start_pre ++ (f ++ (cfg.file_start_middle ++ (intToChars n ++
          cfg.file_start_bytes_suffix))) := by
      simp [List.append_assoc]
    rw [e]
    exact isPrefixOf_append_self _ _
  · unfold pyIn
    apply strFind_isSome_of_infix
    refine ⟨cfg.file_start_pre ++ f, intToChars n ++ cfg.file_start_bytes_suffix, ?_⟩
    simp [List.append_assoc]
  · rw [isSuffixOf_iff_exists]
    exact ⟨cfg.file_start_pre ++ f ++ cfg.file_start_middle ++ intToChars n, rfl⟩

/-- A successful parse implies the line passed the syntactic test. -/
theorem parse_ok_is_start (line : List Char) (cfg : BundlerConfig)
    (r : List Char × Int) (h : parse_file_start_delimiter line cfg = .ok r) :
    is_file_start_delimiter line cfg = true := by
  by_cases hs : is_file_start_delimiter line cfg = true
  · exact hs
  · unfold parse_file_start_delimiter at h
    rw [if_pos hs] at h
    simp at h

/-- C1 (amended): round-trip of the start-delimiter codec under the default
configuration, for filenames in which neither the middle fragment nor the
bytes suffix occurs before its intended position. -/
theorem c1_round_trip (f c : List Char) (hNul : '\x00' ∉ f) (hNl : '\n' ∉ f)
    (hMid : strFind (create_file_start_delimiter f (utf8ByteLength c) defaultConfig)
        defaultConfig.file_start_middle =
      some (defaultConfig.file_start_pre.length + f.length))
    (hSuf : strFind (create_file_start_delimiter f (utf8ByteLength c) defaultConfig)
        defaultConfig.file_start_bytes_suffix =
      some (defaultConfig.file_start_pre.length + f.length +
        defaultConfig.file_start_middle.length + (intToChars (utf8ByteLength c)).length)) :
    parse_file_start_delimiter (create_file_start_delimiter f (utf8ByteLength c) defaultConfig)
      defaultConfig = Except.ok (f, utf8ByteLength c) := by
  have hn : 0 ≤ utf8ByteLength c := by
    unfold utf8ByteLength
    exact Int.natCast_nonneg _
  have hfn : pySlice (create_file_start_delimiter f (utf8ByteLength c) defaultConfig)
      defaultConfig.file_start_pre.length (defaultConfig.file_start_pre.length + f.length) = f := by
    have h := pySlice_append defaultConfig.file_start_pre f
      (defaultConfig.file_start_middle ++ intToChars (utf8ByteLength c) ++
        defaultConfig.file_start_bytes_suffix)
    have e : defaultConfig.file_start_pre ++ f ++
        (defaultConfig.file_start_middle ++ intToChars (utf8ByteLength c) ++
          defaultConfig.file_start_bytes_suffix) =
        create_file_start_delimiter f (utf8ByteLength c) defaultConfig := by
      unfold create_file_start_delimiter
      simp [List.append_assoc]
    rw [e] at h
    exact h
  have hbc : pySlice (create_file_start_delimiter f (utf8ByteLength c) defaultConfig)
      (defaultConfig.file_start_pre.length + f.length + defaultConfig.file_start_middle.length)
      (defaultConfig.file_start_pre.length + f.length + defaultConfig.file_start_middle.length +
        (intToChars (utf8ByteLength c)).length) = intToChars (utf8ByteLength c) := by
    have h := pySlice_append
      (defaultConfig.file_start_pre ++ f ++ defaultConfig.file_start_middle)
      (intToChars (utf8ByteLength c)) defaultConfig.file_start_bytes_suffix
    simp only [List.length_append] at h
    exact h
  unfold parse_file_start_delimiter
  rw [if_neg (not_not_intro (is_start_create f (utf8ByteLength c) defaultConfig))]
  rw [hMid]
  simp only
  rw [hSuf]
  simp only
  rw [hfn, hbc, pyInt?_intToChars _ hn]

theorem c1_witness :
    parse_file_start_delimiter
      (create_file_start_delimiter (chars "a.txt") (utf8ByteLength (chars "hello")) defaultConfig)
      defaultConfig = Except.ok (chars "a.txt", utf8ByteLength (chars "hello")) :=
  c1_round_trip (chars "a.txt") (chars "hello") (by decide) (by decide) (by decide) (by decide)

theorem c1_counterexample :
    parse_file_start_delimiter
      (create_file_start_delimiter (chars "a (b") (utf8ByteLength (chars "")) defaultConfig)
      defaultConfig = Except.error DelimErr.invalidByteCount := by decide

/-- From a successful syntactic test, the middle fragment can be found. -/
theorem strFind_middle_of_is_start (line : List Char) (cfg : BundlerConfig)
    (h : is_file_start_delimiter line cfg = true) :
    ∃ mp, strFind line cfg.file_start_middle = some mp := by
  unfold is_file_start_delimiter at h
  simp only [Bool.and_eq_true] at h
  obtain ⟨⟨_, hm⟩, _⟩ := h
  unfold pyIn at hm
  rcases hfind : strFind line cfg.file_start_middle with _ | mp
  · rw [hfind] at hm; simp at hm
  · exact ⟨mp, rfl⟩

/-- From a successful syntactic test with a non-empty suffix fragment, the
bytes suffix can be found. -/
theorem strFind_suffix_of_is_start (line : List Char) (cfg : BundlerConfig)
    (h : is_file_start_delimiter line cfg = true) :
    ∃ sp, strFind line cfg.file_start_bytes_suffix = some sp := by
  unfold is_file_start_delimiter at h
  simp only [Bool.and_eq_true] at h
  obtain ⟨_, hs⟩ := h
  rw [isSuffixOf_iff_exists] at hs
  obtain ⟨t, rfl⟩ := hs
  have := strFind_isSome_of_infix (t ++ cfg.file_start_bytes_suffix)
    cfg.file_start_bytes_suffix ⟨t, [], by simp⟩
  rcases hfind : strFind (t ++ cfg.file_start_bytes_suffix) cfg.file_start_bytes_suffix
    with _ | sp
  · rw [hfind] at this; simp at this
  · exact ⟨sp, rfl⟩

/-- C4 (amended): under the default configuration, parsing a start delimiter
fails exactly when the syntactic test fails or the numeric field does not
parse as a Python integer (negative integers are accepted). -/
theorem c4_parse_failure_iff (line : List Char) :
    (∃ e, parse_file_start_delimiter line defaultConfig = .error e) ↔
      (is_file_start_delimiter line defaultConfig = false ∨
        pyInt? (byteCountField line defaultConfig) = none) := by
  by_cases hs : is_file_start_delimiter line defaultConfig = true
  · obtain ⟨mp, hmp⟩ := strFind_middle_of_is_start line defaultConfig hs
    obtain ⟨sp, hsp⟩ := strFind_suffix_of_is_start line defaultConfig hs
    have hfield : byteCountField line defaultConfig =
        pySlice line (mp + defaultConfig.file_start_middle.length) sp := by
      unfold byteCountField
      rw [hmp, hsp]
      rfl
    unfold parse_file_start_delimiter
    rw [if_neg (not_not_intro hs), hmp]
    simp only
    rw [hsp]
    simp only
    rw [hfield]
    rcases hint : pyInt? (pySlice line (mp + defaultConfig.file_start_middle.length) sp)
      with _ | k
    · simp [hs]
    · simp [hs]
  · have hs9 : is_file_start_delimiter line defaultConfig = false := by
      simpa using hs
    unfold parse_file_start_delimiter
    rw [if_pos hs]
    simp [hs9]

theorem c4_counterexample :
    parse_file_start_delimiter (chars "--- FILE: a (-5 bytes) ---") defaultConfig =
      Except.ok (chars "a", (-5 : Int)) := by decide

theorem c4_witness :
    (∃ e, parse_file_start_delimiter (chars "--- FILE: x (abc bytes) ---") defaultConfig =
        .error e) ↔
      (is_file_start_delimiter (chars "--- FILE: x (abc bytes) ---") defaultConfig = false ∨
        pyInt? (byteCountField (chars "--- FILE: x (abc bytes) ---") defaultConfig) = none) :=
  c4_parse_failure_iff (chars "--- FILE: x (abc bytes) ---")

/-- C9: end-delimiter detection is exact string equality with the created
end delimiter — no partial matching, no trimming. -/
theorem c9_end_delimiter_exact (line filename : List Char) (cfg : BundlerConfig) :
    is_file_end_delimiter line filename cfg = true ↔
      line = create_file_end_delimiter filename cfg := by
  unfold is_file_end_delimiter create_file_end_delimiter
  exact beq_iff_eq ..

theorem c9_witness :
    is_file_end_delimiter (chars "--- END: test.txt ---") (chars "test.txt") defaultConfig =
        true ↔
      chars "--- END: test.txt ---" = create_file_end_delimiter (chars "test.txt") defaultConfig :=
  c9_end_delimiter_exact (chars "--- END: test.txt ---") (chars "test.txt") defaultConfig

/-- C2: byte-exact payload extraction — with the declared count in range, the
extractor returns exactly the decoded bytes `B[pos : pos+n]` and cursor `pos + n`. -/
theorem c2_extract_exact (b : List Nat) (pos n : Int) (f s : List Char)
    (h0 : 0 ≤ pos) (hn : 0 ≤ n) (hle : pos + n ≤ (b.length : Int))
    (hdec : utf8Decode? ((b.drop pos.toNat).take n.toNat) = some s) :
    extract_file_content_at_position b pos f n = Except.ok (s, pos + n) := by
  unfold extract_file_content_at_position
  rw [if_neg (by omega)]
  have hslice : pySliceB b pos (pos + n) = (b.drop pos.toNat).take n.toNat := by
    rw [pySliceB_eq b pos (pos + n) h0 (by omega) (by omega) hle]
    congr 1
    omega
  rw [hslice, hdec]

theorem c2_witness :
    extract_file_content_at_position (asciiBytes "ab\ncd") 0 (chars "t") 5 =
      Except.ok (chars "ab\ncd", 5) :=
  c2_extract_exact (asciiBytes "ab\ncd") 0 5 (chars "t") (chars "ab\ncd")
    (by decide) (by decide) (by decide) (by decide)

/-- C3 (amended): with the cursor in range, `extract_next_file` returns no
record and an unchanged cursor exactly when the cursor is at the end of the
buffer or on a newline byte. -/
theorem c3_no_progress (b : List Nat) (pos : Int) (cfg : BundlerConfig)
    (h0 : 0 ≤ pos) (hle : pos ≤ (b.length : Int)) :
    extract_next_file b pos cfg = (none, pos) ↔
      (pos = (b.length : Int) ∨ b[pos.toNat]? = some 10) := by
  rw [← find_next_line_end_eq_self_iff b pos h0 hle]
  constructor
  · intro h
    by_contra hne
    obtain ⟨hge, hlen⟩ := find_next_line_end_bounds b pos h0 hle
    unfold extract_next_file at h
    rw [if_neg hne] at h
    rcases hdec : utf8Decode? (pySliceB b pos (find_next_line_end b pos)) with _ | line
    · rw [hdec] at h
      simp only [Prod.mk.injEq] at h
      omega
    · rw [hdec] at h
      simp only at h
      by_cases hstart : is_file_start_delimiter line cfg = true
      · rw [if_neg (not_not_intro hstart)] at h
        rcases hparse : parse_file_start_delimiter line cfg with e | ⟨fn, bc⟩
        · rw [hparse] at h
          simp only [Prod.mk.injEq] at h
          omega
        · rw [hparse] at h
          simp only at h
          rcases hext : extract_file_content_at_position b (find_next_line_end b pos + 1) fn bc
            with e | ⟨s, p⟩
          · rw [hext] at h
            simp only [Prod.mk.injEq] at h
            omega
          · rw [hext] at h
            simp at h
      · rw [if_pos hstart] at h
        simp only [Prod.mk.injEq] at h
        omega
  · intro heq
    unfold extract_next_file
    rw [if_pos heq]

theorem c3_witness :
    extract_next_file (asciiBytes "hi") 2 defaultConfig = (none, 2) :=
  (c3_no_progress (asciiBytes "hi") 2 defaultConfig (by decide) (by decide)).mpr
    (Or.inl (by decide))

theorem c3_counterexample :
    extract_next_file [10, 120] 0 defaultConfig = (none, 0) ∧
      (0 : Int) < (([10, 120] : List Nat).length : Int) := by decide

/-- C5: truncation detection — a declared count past the end of the buffer
makes extraction fail with `truncatedContent`, and `extract_next_file`
converts that failure into no record with the cursor just past the start
line. -/
theorem c5_truncation_detection :
    (∀ (b : List Nat) (pos : Int) (f : List Char) (n : Int),
        pos + n > (b.length : Int) →
        extract_file_content_at_position b pos f n = .error .truncatedContent) ∧
    (∀ (b : List Nat) (pos : Int) (cfg : BundlerConfig) (line f : List Char) (n : Int),
        find_next_line_end b pos ≠ pos →
        utf8Decode? (pySliceB b pos (find_next_line_end b pos)) = some line →
        parse_file_start_delimiter line cfg = .ok (f, n) →
        find_next_line_end b pos + 1 + n > (b.length : Int) →
        extract_next_file b pos cfg = (none, find_next_line_end b pos + 1)) := by
  constructor
  · intro b pos f n h
    unfold extract_file_content_at_position
    rw [if_pos h]
  · intro b pos cfg line f n hne hdec hparse htrunc
    have htr : extract_file_content_at_position b (find_next_line_end b pos + 1) f n =
        .error .truncatedContent := by
      unfold extract_file_content_at_position
      rw [if_pos htrunc]
    unfold extract_next_file
    rw [if_neg hne, hdec]
    simp only
    rw [if_neg (not_not_intro (parse_ok_is_start line cfg (f, n) hparse)), hparse]
    simp only
    rw [htr]

theorem c5_witness :
    extract_file_content_at_position (asciiBytes "short") 0 (chars "x") 100 =
      .error .truncatedContent ∧
    extract_next_file (asciiBytes "--- FILE: x.txt (100 bytes) ---\nshort") 0 defaultConfig =
      (none, find_next_line_end (asciiBytes "--- FILE: x.txt (100 bytes) ---\nshort") 0 + 1) :=
  ⟨c5_truncation_detection.1 (asciiBytes "short") 0 (chars "x") 100 (by decide),
   c5_truncation_detection.2 (asciiBytes "--- FILE: x.txt (100 bytes) ---\nshort") 0
     defaultConfig (chars "--- FILE: x.txt (100 bytes) ---") (chars "x.txt") 100
     (by decide) (by decide) (by decide) (by decide)⟩

/-- C6: end-marker tolerance — after a payload followed by its separator
newline, a line that is not the exact end marker makes `skip_end_delimiter`
return the position right after the separator, and a successful record is
returned by `extract_next_file` independently of what follows the payload. -/
theorem c6_end_marker_tolerance :
    (∀ (b : List Nat) (pos : Int) (f : List Char) (cfg : BundlerConfig),
        0 ≤ pos → b[pos.toNat]? = some 10 →
        endLineMatches b (pos + 1) f cfg = false →
        skip_end_delimiter b pos f cfg = pos + 1) ∧
    (∀ (b : List Nat) (pos : Int) (cfg : BundlerConfig) (line f s : List Char) (n p : Int),
        find_next_line_end b pos ≠ pos →
        utf8Decode? (pySliceB b pos (find_next_line_end b pos)) = some line →
        parse_file_start_delimiter line cfg = .ok (f, n) →
        extract_file_content_at_position b (find_next_line_end b pos + 1) f n = .ok (s, p) →
        extract_next_file b pos cfg = (some (f, s), skip_end_delimiter b p f cfg)) := by
  constructor
  · intro b pos f cfg h0 hbyte hmatch
    have hlt : pos.toNat < b.length := (List.getElem?_eq_some.mp hbyte).1
    have hsep : skipSepPos b pos = pos + 1 := skipSepPos_of_newline b pos h0 hbyte
    unfold skip_end_delimiter
    rw [if_neg (by omega), hsep]
    unfold endLineMatches at hmatch
    by_cases hgt : find_next_line_end b (pos + 1) > pos + 1
    · rw [if_pos hgt]
      rcases hdec : utf8Decode? (pySliceB b (pos + 1) (find_next_line_end b (pos + 1)))
        with _ | el
      · rfl
      · have hm : is_file_end_delimiter el f cfg = false := by
          rw [hdec] at hmatch
          rw [decide_eq_true hgt, Bool.true_and] at hmatch
          exact hmatch
        simp [hm]
    · rw [if_neg hgt]
  · intro b pos cfg line f s n p hne hdec hparse hext
    unfold extract_next_file
    rw [if_neg hne, hdec]
    simp only
    rw [if_neg (not_not_intro (parse_ok_is_start line cfg (f, n) hparse)), hparse]
    simp only
    rw [hext]

theorem c6_witness :
    skip_end_delimiter (asciiBytes "--- FILE: a.txt (5 bytes) ---\nhello\n--- END: b.txt ---\n")
      35 (chars "a.txt") defaultConfig = 35 + 1 ∧
    extract_next_file (asciiBytes "--- FILE: a.txt (5 bytes) ---\nhello\n--- END: b.txt ---\n")
      0 defaultConfig =
      (some (chars "a.txt", chars "hello"),
        skip_end_delimiter (asciiBytes "--- FILE: a.txt (5 bytes) ---\nhello\n--- END: b.txt ---\n")
          35 (chars "a.txt") defaultConfig) :=
  ⟨c6_end_marker_tolerance.1 _ 35 (chars "a.txt") defaultConfig (by decide) (by decide)
      (by decide),
   c6_end_marker_tolerance.2 _ 0 defaultConfig (chars "--- FILE: a.txt (5 bytes) ---")
      (chars "a.txt") (chars "hello") 5 35 (by decide) (by decide) (by decide) (by decide)⟩

/-- C10 (amended): for an in-range cursor, `skip_end_delimiter` never moves
backwards and stays within `len + 1`; it returns `len + 1` only when the
matched end-marker line is the final, unterminated line of the buffer. -/
theorem c10_skip_cursor_bounds (b : List Nat) (pos : Int) (f : List Char) (cfg : BundlerConfig)
    (h0 : 0 ≤ pos) (hle : pos ≤ (b.length : Int)) :
    pos ≤ skip_end_delimiter b pos f cfg ∧
      (skip_end_delimiter b pos f cfg ≤ (b.length : Int) ∨
        (skip_end_delimiter b pos f cfg = (b.length : Int) + 1 ∧
          find_next_line_end b (skipSepPos b pos) = (b.length : Int) ∧
          endLineMatches b (skipSepPos b pos) f cfg = true)) := by
  unfold skip_end_delimiter
  by_cases hend : pos ≥ (b.length : Int)
  · rw [if_pos hend]
    exact ⟨le_refl _, Or.inl hle⟩
  · rw [if_neg hend]
    have hplen : pos < (b.length : Int) := by omega
    obtain ⟨hsp1, hsp2⟩ := skipSepPos_bounds b pos hplen
    have hsp0 : 0 ≤ skipSepPos b pos := by omega
    obtain ⟨hf1, hf2⟩ := find_next_line_end_bounds b (skipSepPos b pos) hsp0 hsp2
    by_cases hgt : find_next_line_end b (skipSepPos b pos) > skipSepPos b pos
    · rw [if_pos hgt]
      split
      · rename_i el hdec
        by_cases hm : is_file_end_delimiter el f cfg = true
        · rw [if_pos hm]
          refine ⟨by omega, ?_⟩
          by_cases hflen : find_next_line_end b (skipSepPos b pos) = (b.length : Int)
          · refine Or.inr ⟨by omega, hflen, ?_⟩
            unfold endLineMatches
            rw [hdec]
            simp [hgt, hm]
          · exact Or.inl (by omega)
        · rw [if_neg hm]
          exact ⟨by omega, Or.inl (by omega)⟩
      · rename_i hdec
        exact ⟨by omega, Or.inl (by omega)⟩
    · rw [if_neg hgt]
      exact ⟨by omega, Or.inl (by omega)⟩

theorem c10_witness :
    (0 : Int) ≤ skip_end_delimiter (asciiBytes "\n--- END: a ---") 0 (chars "a") defaultConfig ∧
      (skip_end_delimiter (asciiBytes "\n--- END: a ---") 0 (chars "a") defaultConfig ≤
          ((asciiBytes "\n--- END: a ---").length : Int) ∨
        (skip_end_delimiter (asciiBytes "\n--- END: a ---") 0 (chars "a") defaultConfig =
            ((asciiBytes "\n--- END: a ---").length : Int) + 1 ∧
          find_next_line_end (asciiBytes "\n--- END: a ---")
              (skipSepPos (asciiBytes "\n--- END: a ---") 0) =
            ((asciiBytes "\n--- END: a ---").length : Int) ∧
          endLineMatches (asciiBytes "\n--- END: a ---")
              (skipSepPos (asciiBytes "\n--- END: a ---") 0) (chars "a") defaultConfig = true)) :=
  c10_skip_cursor_bounds (asciiBytes "\n--- END: a ---") 0 (chars "a") defaultConfig
    (by decide) (by decide)

theorem c10_counterexample :
    skip_end_delimiter ([] : List Nat) 2 (chars "a") defaultConfig = 2 := by decide

/-- The buffer of concrete scenario 1. -/
def bufC8 : List Nat := asciiBytes "--- FILE: a.txt (5 bytes) ---\nhello\n--- END: a.txt ---\n"

/-- C8: the concrete scenario buffer yields exactly one record with the final
cursor at the buffer length. -/
theorem c8_concrete_scenario :
    extract_next_file bufC8 0 defaultConfig = (some (chars "a.txt", chars "hello"), 55) ∧
      bufC8.length = 55 ∧
      unpackFrom bufC8 defaultConfig 2 0 [] = some [(chars "a.txt", chars "hello")] := by
  refine ⟨by decide, by decide, by decide⟩

/-- A 53-byte buffer on which the unpack scan cycles forever: the second start
line declares `-54` bytes, which moves the cursor back to position `0`. -/
def bufC7 : List Nat := asciiBytes "--- FILE: a (0 bytes) ---\n--- FILE: b (-54 bytes) ---"

/-- The unpack driver loop never finishes on `bufC7` from positions 0 or 26. -/
theorem unpackFrom_bufC7_none :
    ∀ (fuel : Nat) (pos : Int) (acc : List (List Char × List Char)),
      pos = 0 ∨ pos = 26 → unpackFrom bufC7 defaultConfig fuel pos acc = none := by
  intro fuel
  induction fuel with
  | zero => intro pos acc _; rfl
  | succ f ih =>
    intro pos acc h
    rcases h with rfl | rfl
    · have e : extract_next_file bufC7 0 defaultConfig = (some (chars "a", chars ""), 26) := by
        decide
      unfold unpackFrom
      rw [if_neg (by decide), e]
      simp only
      rw [if_neg (by decide)]
      exact ih 26 ((chars "a", chars "") :: acc) (Or.inr rfl)
    · have e : extract_next_file bufC7 26 defaultConfig = (some (chars "b", chars ""), 0) := by
        decide
      unfold unpackFrom
      rw [if_neg (by decide), e]
      simp only
      rw [if_neg (by decide)]
      exact ih 0 ((chars "b", chars "") :: acc) (Or.inl rfl)

/-- C7: the unpack driver loop does not terminate on `bufC7` — no amount of
fuel finishes it; the two extraction steps that cycle are evaluated. -/
theorem c7_nontermination :
    (∀ fuel : Nat, unpackFrom bufC7 defaultConfig fuel 0 [] = none) ∧
      extract_next_file bufC7 0 defaultConfig = (some (chars "a", chars ""), 26) ∧
      extract_next_file bufC7 26 defaultConfig = (some (chars "b", chars ""), 0) :=
  ⟨fun fuel => unpackFrom_bufC7_none fuel 0 [] (Or.inl rfl), by decide, by decide⟩

theorem c7_witness : unpackFrom bufC7 defaultConfig 5 0 [] = none :=
  c7_nontermination.1 5
